import Mathlib

/-!
Verification of the in-block free-list memory allocator
(`Memory_Allocator/inblock_allocator.hpp`).

The allocator manages a single caller-supplied region.  Every block is
prefixed by an 8-byte header holding the payload size; blocks in the free
list additionally carry `next`/`previous` links.  We model the heap shallowly:

* addresses and sizes are natural numbers (`size_t` values); the one place
  where the source's unsigned wrap-around is an observable, well-defined
  value computation — the bit-mask rounding in `get_aligned_size` — is
  modelled with an explicit `% 2^64`;
* the doubly-linked free list is modelled as a `List Block` in list order;
  the pointer surgery of the source is translated branch-for-branch into
  list surgery (the `next`/`previous` fields are exactly the list
  neighbours);
* the headers of currently allocated blocks (the size stamped by
  `allocate`) are kept in an `allocated` list, standing for the block
  headers that live inside the region while a block is checked out;
* executions the source declares undefined — deallocating a foreign or
  already-free pointer, and requests whose pointer arithmetic would leave
  the region — are outside the modelled contract; `deallocate` on a
  pointer that is not a live allocation is modelled as a no-op.
-/

namespace Alloc

/-- `m_headerSize` of `inblock_allocator_heap`: 8 bytes. -/
def m_headerSize : Nat := 8

/-- `sizeof(word)` where `using word = uint64_t`: 8 bytes. -/
def wordBytes : Nat := 8

/-- The modulus of `size_t` arithmetic on the supported 64-bit targets
(`2 ^ 64`). -/
def SIZE_T_MOD : Nat := 18446744073709551616

/-- `m_padding = sizeof(void*) == 8 ? 8 : 0`: the extra padding constant,
8 on a 64-bit target and 0 on a 32-bit target. -/
def m_padding (ptrBytes : Nat) : Nat := if ptrBytes = 8 then 8 else 0

/-- A chunk header (`struct Block`).  `size` is the payload size in bytes,
excluding the header.  The `next`/`previous` links of the source are the
list neighbours in our list model, so only `size` and the block's address
remain as data. -/
structure Block where
  addr : Nat
  size : Nat
deriving DecidableEq, Repr

/-- The heap bookkeeping of `inblock_allocator_heap` plus the headers of the
blocks currently checked out to the caller (`allocated`). -/
structure Heap where
  padding : Nat
  bytes : Nat
  heapPtr : Nat
  freeList : List Block
  allocated : List Block
deriving DecidableEq, Repr

/-- `inblock_allocator_heap::operator()(ptr, n_bytes)`: one free block
spanning the region, `size = n_bytes - m_headerSize`. -/
def heapInit (pad ptr nbytes : Nat) : Heap :=
  { padding := pad
    bytes := nbytes
    heapPtr := ptr
    freeList := [⟨ptr, nbytes - m_headerSize⟩]
    allocated := [] }

/-- `get_aligned_size(size) = (size + m_padding + sizeof(word) - 1) & ~(sizeof(word) - 1)`,
computed in `size_t` arithmetic; `x & ~7 = x / 8 * 8`. -/
def get_aligned_size (pad size : Nat) : Nat :=
  (((size + pad + (wordBytes - 1)) % SIZE_T_MOD) / wordBytes) * wordBytes

/-- First loop of `find_best_fit`: find the first chunk with
`it->size > need` and return it together with the rest of the list. -/
def find_first_fit (need : Nat) : List Block → Option (Block × List Block)
  | [] => none
  | it :: rest => if need < it.size then some (it, rest) else find_first_fit need rest

/-- Second loop of `find_best_fit`: keep the best candidate, replacing it
only by a qualifying chunk of strictly smaller size. -/
def find_best_loop (need : Nat) (best : Block) : List Block → Block
  | [] => best
  | it :: rest =>
      if need < it.size ∧ it.size < best.size then find_best_loop need it rest
      else find_best_loop need best rest

/-- `find_best_fit(size)`: `size += m_padding`, then both loops test
`it->size > size + m_headerSize`, so the qualification threshold is
`size + pad + m_headerSize`. -/
def find_best_fit (pad : Nat) (freeList : List Block) (size : Nat) : Option Block :=
  match find_first_fit (size + pad + m_headerSize) freeList with
  | none => none
  | some (first, rest) => some (find_best_loop (size + pad + m_headerSize) first rest)

/-- Unlink the (first) block at address `a` from the list: the pointer
patching of the exact-fit branch of `remove_and_split`. -/
def removeBlock : List Block → Nat → List Block
  | [], _ => []
  | b :: rest, a => if b.addr = a then rest else b :: removeBlock rest a

/-- Splice `r` into the (first) position of the block at address `a`: the
pointer patching of the split branch of `remove_and_split`. -/
def replaceBlock : List Block → Nat → Block → List Block
  | [], _, _ => []
  | b :: rest, a, r => if b.addr = a then r :: rest else b :: replaceBlock rest a r

/-- `remove_and_split(block, needed_size)`: exact fit unlinks the block,
otherwise the remainder at `block + needed_size + m_headerSize`, of size
`block->size - needed_size - m_headerSize`, takes over the block's position
in the free list. -/
def remove_and_split (block : Block) (needed_size : Nat) (freeList : List Block) :
    List Block :=
  if block.size = needed_size then
    removeBlock freeList block.addr
  else
    replaceBlock freeList block.addr
      ⟨block.addr + needed_size + m_headerSize, block.size - needed_size - m_headerSize⟩

/-- `insert_into_free_list(block)`: splice the block in front of the first
entry with a larger address; append at the tail if none exists. -/
def insert_into_free_list (block : Block) : List Block → List Block
  | [] => [block]
  | it :: rest =>
      if block.addr < it.addr then block :: it :: rest
      else it :: insert_into_free_list block rest

/-- First half of `merge_adjacent_blocks`: if the list successor of the
freed block starts exactly at `block + m_headerSize + block->size`, absorb
it (`block->size += next->size + m_headerSize`) and unlink it. -/
def mergeRight (block : Block) : List Block → Block × List Block
  | [] => (block, [])
  | c :: rest =>
      if c.addr = block.addr + m_headerSize + block.size then
        (⟨block.addr, block.size + c.size + m_headerSize⟩, rest)
      else (block, c :: rest)

/-- Walk of `merge_adjacent_blocks` once past the list head: `prev` is the
candidate `block->previous`.  When the freed block is found, merge with its
successor, then with `prev` when `block == prev + m_headerSize + prev->size`
(`prev->size = block->size + prev->size + m_headerSize`). -/
def mergeInner (blockAddr : Nat) (prev : Block) : List Block → List Block
  | [] => [prev]
  | b :: rest =>
      if b.addr = blockAddr then
        let p := mergeRight b rest
        if p.1.addr = prev.addr + m_headerSize + prev.size then
          ⟨prev.addr, p.1.size + prev.size + m_headerSize⟩ :: p.2
        else prev :: p.1 :: p.2
      else prev :: mergeInner blockAddr b rest

/-- `merge_adjacent_blocks(block)`: at the list head the freed block has no
`previous`, so only the right merge applies; otherwise walk down keeping
the candidate `previous`. -/
def merge_adjacent_blocks (blockAddr : Nat) : List Block → List Block
  | [] => []
  | b :: rest =>
      if b.addr = blockAddr then
        let p := mergeRight b rest
        p.1 :: p.2
      else mergeInner blockAddr b rest

/-- `inblock_allocator::allocate`, with the byte count
`n * sizeof(T)` taken as the argument.  On failure (`throw bad_alloc`) the
heap is untouched and `none` is returned; on success the stamped header
(`best->size = size`) joins `allocated` and the payload pointer
`best + m_headerSize` is returned. -/
def allocate (st : Heap) (nbytes : Nat) : Option Nat × Heap :=
  let size := get_aligned_size st.padding nbytes
  match find_best_fit st.padding st.freeList size with
  | none => (none, st)
  | some best =>
      (some (best.addr + m_headerSize),
       { st with
          freeList := remove_and_split best size st.freeList
          allocated := ⟨best.addr, size⟩ :: st.allocated })

/-- Look up the live allocation whose header sits at address `a`. -/
def lookupAlloc : List Block → Nat → Option Block
  | [], _ => none
  | b :: rest, a => if b.addr = a then some b else lookupAlloc rest a

/-- `inblock_allocator::deallocate(ptr, n)`: recover the header at
`ptr - m_headerSize`, insert it into the free list, merge with physical
neighbours.  The count argument `n` is ignored by the source.  A pointer
that is not a live allocation is a caller-contract violation (undefined
behaviour in the source); it is modelled as a no-op. -/
def deallocate (st : Heap) (ptr : Nat) (n : Nat) : Heap :=
  match lookupAlloc st.allocated (ptr - m_headerSize) with
  | none => st
  | some block =>
      { st with
          freeList := merge_adjacent_blocks block.addr
            (insert_into_free_list block st.freeList)
          allocated := removeBlock st.allocated block.addr }

/-- States reachable through the public interface: an `init` on a region of
at least one header (the documented precondition) followed by any sequence
of `allocate`/`deallocate` calls. -/
inductive Reachable : Heap → Prop
  | init (ptrBytes ptr nbytes : Nat) (hlb : m_headerSize ≤ nbytes)
      (hub : nbytes < SIZE_T_MOD) :
      Reachable (heapInit (m_padding ptrBytes) ptr nbytes)
  | alloc (st : Heap) (n : Nat) : Reachable st → Reachable (allocate st n).2
  | dealloc (st : Heap) (p n : Nat) : Reachable st → Reachable (deallocate st p n)

/-- One past the end of a block, header included. -/
def blockEnd (b : Block) : Nat := b.addr + m_headerSize + b.size

/-- Strict separation: `a` ends strictly before `b` starts. -/
def gapLt (a b : Block) : Prop := blockEnd a < b.addr

/-- Two blocks occupy disjoint byte ranges of the region. -/
def BlocksDisjoint (a b : Block) : Prop := blockEnd a ≤ b.addr ∨ blockEnd b ≤ a.addr

/-- All block headers currently in the region: free list then live
allocations. -/
def allBlocks (st : Heap) : List Block := st.freeList ++ st.allocated

/-- Total bytes accounted for by every block, header included. -/
def sumBlocks (st : Heap) : Nat :=
  ((allBlocks st).map (fun b => b.size + m_headerSize)).sum

/-- The heap-shape invariant maintained by every reachable state. -/
structure Inv (st : Heap) : Prop where
  chain : st.freeList.Chain' gapLt
  disj : (allBlocks st).Pairwise BlocksDisjoint
  conserve : sumBlocks st = st.bytes
  align : ∀ b ∈ allBlocks st, b.addr % 8 = st.heapPtr % 8

/-- Reference reading of the best-fit policy, written from the spec's
words: among the qualifying blocks (`need < size`), the first-encountered
one of minimal size; `none` when no block qualifies.  A later block
replaces the current choice only when its size is strictly smaller. -/
def firstMinQual (need : Nat) : List Block → Option Block
  | [] => none
  | b :: rest =>
      match firstMinQual need rest with
      | none => if need < b.size then some b else none
      | some m =>
          if need < b.size then some (if b.size ≤ m.size then b else m) else some m

lemma get_aligned_size_mod8 (pad n : Nat) : get_aligned_size pad n % 8 = 0 := by
  unfold get_aligned_size wordBytes
  simp [Nat.mul_mod_left]

lemma get_aligned_size_lower (pad n : Nat) (h : n + pad + 7 < SIZE_T_MOD) :
    n + pad ≤ get_aligned_size pad n := by
  unfold get_aligned_size wordBytes
  rw [show (8 : Nat) - 1 = 7 from rfl, Nat.mod_eq_of_lt h]
  omega

lemma get_aligned_size_upper (pad n : Nat) (h : n + pad + 7 < SIZE_T_MOD) :
    get_aligned_size pad n < n + pad + 8 := by
  unfold get_aligned_size wordBytes
  rw [show (8 : Nat) - 1 = 7 from rfl, Nat.mod_eq_of_lt h]
  omega

lemma find_first_fit_none {need : Nat} :
    ∀ {l : List Block}, find_first_fit need l = none ↔ ∀ b ∈ l, b.size ≤ need := by
  intro l
  induction l with
  | nil => simp [find_first_fit]
  | cons it rest ih =>
      by_cases h : need < it.size
      · simp only [find_first_fit, if_pos h]
        constructor
        · intro hc; exact absurd hc (by simp)
        · intro hall; exfalso; have := hall it (by simp); omega
      · simp only [find_first_fit, if_neg h]
        rw [ih]
        constructor
        · intro hall b hb
          rcases List.mem_cons.mp hb with he | hb
          · rw [he]; omega
          · exact hall b hb
        · intro hall b hb; exact hall b (List.mem_cons_of_mem _ hb)

lemma find_first_fit_some {need : Nat} :
    ∀ {l : List Block} {f : Block} {rest : List Block},
      find_first_fit need l = some (f, rest) →
      ∃ pre, l = pre ++ f :: rest ∧ (∀ b ∈ pre, b.size ≤ need) ∧ need < f.size := by
  intro l
  induction l with
  | nil => intro f rest h; simp [find_first_fit] at h
  | cons it tl ih =>
      intro f rest h
      by_cases hq : need < it.size
      · simp only [find_first_fit, if_pos hq, Option.some.injEq, Prod.mk.injEq] at h
        obtain ⟨rfl, rfl⟩ := h
        exact ⟨[], by simp, by simp, hq⟩
      · simp only [find_first_fit, if_neg hq] at h
        obtain ⟨pre, hl, hpre, hf⟩ := ih h
        refine ⟨it :: pre, by simp [hl], ?_, hf⟩
        intro b hb
        rcases List.mem_cons.mp hb with he | hb
        · rw [he]; omega
        · exact hpre b hb

lemma find_best_loop_qual {need : Nat} :
    ∀ (l : List Block) (best : Block), need < best.size →
      need < (find_best_loop need best l).size := by
  intro l
  induction l with
  | nil => intro best h; simpa [find_best_loop] using h
  | cons it rest ih =>
      intro best h
      by_cases hc : need < it.size ∧ it.size < best.size
      · simpa [find_best_loop, hc] using ih it hc.1
      · simpa [find_best_loop, hc] using ih best h

lemma find_best_loop_le {need : Nat} :
    ∀ (l : List Block) (best : Block),
      (find_best_loop need best l).size ≤ best.size := by
  intro l
  induction l with
  | nil => intro best; simp [find_best_loop]
  | cons it rest ih =>
      intro best
      by_cases hc : need < it.size ∧ it.size < best.size
      · have := ih it
        simp only [find_best_loop, if_pos hc]
        omega
      · simpa [find_best_loop, hc] using ih best

lemma find_best_loop_min {need : Nat} :
    ∀ (l : List Block) (best c : Block), c ∈ l → need < c.size →
      (find_best_loop need best l).size ≤ c.size := by
  intro l
  induction l with
  | nil => intro best c hc _; simp at hc
  | cons it rest ih =>
      intro best c hc hq
      by_cases h2 : need < it.size ∧ it.size < best.size
      · simp only [find_best_loop, if_pos h2]
        rcases List.mem_cons.mp hc with he | hm
        · have := @find_best_loop_le need rest it
          rw [he]; omega
        · exact ih it c hm hq
      · simp only [find_best_loop, if_neg h2]
        rcases List.mem_cons.mp hc with he | hm
        · have := @find_best_loop_le need rest best
          rw [he] at hq ⊢
          omega
        · exact ih best c hm hq

lemma find_best_loop_mem {need : Nat} :
    ∀ (l : List Block) (best : Block),
      find_best_loop need best l = best ∨ find_best_loop need best l ∈ l := by
  intro l
  induction l with
  | nil => intro best; simp [find_best_loop]
  | cons it rest ih =>
      intro best
      by_cases hc : need < it.size ∧ it.size < best.size
      · rcases ih it with h | h
        · right; simp [find_best_loop, hc, h]
        · right; simp [find_best_loop, hc]; right; exact h
      · rcases ih best with h | h
        · left; simpa [find_best_loop, hc] using h
        · right; simp [find_best_loop, hc]; right; exact h

lemma find_best_fit_of_fff_none {pad s : Nat} {l : List Block}
    (hff : find_first_fit (s + pad + m_headerSize) l = none) :
    find_best_fit pad l s = none := by
  unfold find_best_fit
  rw [hff]

lemma find_best_fit_of_fff_some {pad s : Nat} {l : List Block} {f : Block}
    {rest : List Block}
    (hff : find_first_fit (s + pad + m_headerSize) l = some (f, rest)) :
    find_best_fit pad l s =
      some (find_best_loop (s + pad + m_headerSize) f rest) := by
  unfold find_best_fit
  rw [hff]

/-- Soundness of `find_best_fit`: a returned block is a free-list member
whose size strictly exceeds `size + padding + m_headerSize`. -/
lemma find_best_fit_some {pad s : Nat} {l : List Block} {best : Block}
    (h : find_best_fit pad l s = some best) :
    best ∈ l ∧ s + pad + m_headerSize < best.size := by
  rcases hff : find_first_fit (s + pad + m_headerSize) l with _ | ⟨f, rest⟩
  · rw [find_best_fit_of_fff_none hff] at h
    exact absurd h (by simp)
  · rw [find_best_fit_of_fff_some hff] at h
    simp only [Option.some.injEq] at h
    obtain ⟨pre, hl, _, hf⟩ := find_first_fit_some hff
    constructor
    · rcases @find_best_loop_mem (s + pad + m_headerSize) rest f with hm | hm
      · rw [← h, hm, hl]; simp
      · rw [hl, ← h]
        simp only [List.mem_append, List.mem_cons]
        right; right; exact hm
    · rw [← h]
      exact find_best_loop_qual rest f hf

lemma find_best_fit_none_iff {pad s : Nat} {l : List Block} :
    find_best_fit pad l s = none ↔ ∀ b ∈ l, b.size ≤ s + pad + m_headerSize := by
  rcases hff : find_first_fit (s + pad + m_headerSize) l with _ | ⟨f, rest⟩
  · rw [find_best_fit_of_fff_none hff]
    simpa using find_first_fit_none.mp hff
  · rw [find_best_fit_of_fff_some hff]
    constructor
    · intro h; exact absurd h (by simp)
    · intro hall
      obtain ⟨pre, hl, _, hf⟩ := find_first_fit_some hff
      have hmem : f ∈ l := by rw [hl]; simp
      have := hall f hmem
      omega

/-- The choice step of the spec-side best-fit reading: keep `best` unless
the challenger is strictly smaller. -/
def pickBetter (best : Block) : Option Block → Block
  | none => best
  | some m => if m.size < best.size then m else best

lemma pickBetter_none (best : Block) : pickBetter best none = best := rfl

lemma pickBetter_some (best m : Block) :
    pickBetter best (some m) = if m.size < best.size then m else best := rfl

lemma firstMinQual_cons_none {need : Nat} {b : Block} {rest : List Block}
    (hm : firstMinQual need rest = none) :
    firstMinQual need (b :: rest) = if need < b.size then some b else none := by
  simp [firstMinQual, hm]

lemma firstMinQual_cons_some {need : Nat} {b m : Block} {rest : List Block}
    (hm : firstMinQual need rest = some m) :
    firstMinQual need (b :: rest) =
      if need < b.size then some (if b.size ≤ m.size then b else m) else some m := by
  simp [firstMinQual, hm]

lemma firstMinQual_qual {need : Nat} :
    ∀ {l : List Block} {m : Block}, firstMinQual need l = some m → need < m.size := by
  intro l
  induction l with
  | nil => intro m h; simp [firstMinQual] at h
  | cons b rest ih =>
      intro m h
      rcases hm : firstMinQual need rest with _ | m'
      · rw [firstMinQual_cons_none hm] at h
        by_cases hq : need < b.size
        · rw [if_pos hq] at h
          simp only [Option.some.injEq] at h
          rw [← h]; exact hq
        · rw [if_neg hq] at h
          exact absurd h (by simp)
      · rw [firstMinQual_cons_some hm] at h
        have hm' := ih hm
        by_cases hq : need < b.size
        · rw [if_pos hq] at h
          simp only [Option.some.injEq] at h
          by_cases hle : b.size ≤ m'.size
          · rw [if_pos hle] at h; rw [← h]; exact hq
          · rw [if_neg hle] at h; rw [← h]; exact hm'
        · rw [if_neg hq] at h
          simp only [Option.some.injEq] at h
          rw [← h]; exact hm'

lemma firstMinQual_mem {need : Nat} :
    ∀ {l : List Block} {m : Block}, firstMinQual need l = some m → m ∈ l := by
  intro l
  induction l with
  | nil => intro m h; simp [firstMinQual] at h
  | cons b rest ih =>
      intro m h
      rcases hm : firstMinQual need rest with _ | m'
      · rw [firstMinQual_cons_none hm] at h
        by_cases hq : need < b.size
        · rw [if_pos hq] at h
          simp only [Option.some.injEq] at h
          simp [← h]
        · rw [if_neg hq] at h
          exact absurd h (by simp)
      · rw [firstMinQual_cons_some hm] at h
        by_cases hq : need < b.size
        · rw [if_pos hq] at h
          simp only [Option.some.injEq] at h
          by_cases hle : b.size ≤ m'.size
          · rw [if_pos hle] at h; simp [← h]
          · rw [if_neg hle] at h
            have := ih hm
            simp [← h, this]
        · rw [if_neg hq] at h
          simp only [Option.some.injEq] at h
          have := ih hm
          simp [← h, this]

lemma firstMinQual_none {need : Nat} :
    ∀ {l : List Block}, firstMinQual need l = none ↔ ∀ b ∈ l, b.size ≤ need := by
  intro l
  induction l with
  | nil => simp [firstMinQual]
  | cons b rest ih =>
      rcases hm : firstMinQual need rest with _ | m
      · rw [firstMinQual_cons_none hm]
        by_cases hq : need < b.size
        · rw [if_pos hq]
          constructor
          · intro hc; exact absurd hc (by simp)
          · intro hall; exfalso; have := hall b (by simp); omega
        · rw [if_neg hq]
          constructor
          · intro _ c hc
            rcases List.mem_cons.mp hc with he | hc
            · rw [he]; omega
            · exact (ih.mp hm) c hc
          · intro _; rfl
      · rw [firstMinQual_cons_some hm]
        have hq' := firstMinQual_qual hm
        have hmem := firstMinQual_mem hm
        constructor
        · intro h
          by_cases hq : need < b.size
          · rw [if_pos hq] at h; exact absurd h (by simp)
          · rw [if_neg hq] at h; exact absurd h (by simp)
        · intro hall
          exfalso
          have := hall m (by simp only [List.mem_cons]; right; exact hmem)
          omega

lemma firstMinQual_skip {need : Nat} {b : Block} {l : List Block}
    (h : ¬ need < b.size) : firstMinQual need (b :: l) = firstMinQual need l := by
  rcases hm : firstMinQual need l with _ | m
  · simp [firstMinQual_cons_none hm, h]
  · simp [firstMinQual_cons_some hm, h]

lemma firstMinQual_append_skip {need : Nat} :
    ∀ (pre l : List Block), (∀ b ∈ pre, b.size ≤ need) →
      firstMinQual need (pre ++ l) = firstMinQual need l := by
  intro pre
  induction pre with
  | nil => intro l _; rfl
  | cons b tl ih =>
      intro l hpre
      have hb : ¬ need < b.size := by have := hpre b (by simp); omega
      rw [List.cons_append, firstMinQual_skip hb]
      exact ih l (fun c hc => hpre c (by simp [hc]))

lemma find_best_loop_eq_fmq {need : Nat} :
    ∀ (l : List Block) (best : Block), need < best.size →
      find_best_loop need best l = pickBetter best (firstMinQual need l) := by
  intro l
  induction l with
  | nil => intro best _; simp [find_best_loop, firstMinQual, pickBetter]
  | cons b rest ih =>
      intro best hbest
      by_cases hq : need < b.size
      · by_cases hlt : b.size < best.size
        · have hstep : find_best_loop need best (b :: rest) =
              find_best_loop need b rest := by
            simp [find_best_loop, hq, hlt]
          rw [hstep, ih b hq]
          rcases hm : firstMinQual need rest with _ | m
          · rw [firstMinQual_cons_none hm, if_pos hq, pickBetter_none,
              pickBetter_some, if_pos hlt]
          · have hq' := firstMinQual_qual hm
            rw [firstMinQual_cons_some hm, if_pos hq, pickBetter_some,
              pickBetter_some]
            by_cases hle : b.size ≤ m.size
            · rw [if_pos hle, if_neg (by omega), if_pos hlt]
            · rw [if_neg hle, if_pos (by omega), if_pos (by omega)]
        · have hstep : find_best_loop need best (b :: rest) =
              find_best_loop need best rest := by
            have hns : ¬ (need < b.size ∧ b.size < best.size) := by omega
            simp [find_best_loop, hns]
          rw [hstep, ih best hbest]
          rcases hm : firstMinQual need rest with _ | m
          · rw [firstMinQual_cons_none hm, if_pos hq, pickBetter_none,
              pickBetter_some, if_neg hlt]
          · have hq' := firstMinQual_qual hm
            rw [firstMinQual_cons_some hm, if_pos hq, pickBetter_some,
              pickBetter_some]
            by_cases hle : b.size ≤ m.size
            · rw [if_pos hle, if_neg (by omega), if_neg hlt]
            · rw [if_neg hle]
      · have hstep : find_best_loop need best (b :: rest) =
            find_best_loop need best rest := by
          have hns : ¬ (need < b.size ∧ b.size < best.size) := by omega
          simp [find_best_loop, hns]
        rw [hstep, ih best hbest, firstMinQual_skip hq]

/-- `find_best_fit` computes exactly the first-encountered minimal block
among those passing the test `size + padding + m_headerSize < it.size`. -/
lemma find_best_fit_eq_firstMinQual (pad s : Nat) (l : List Block) :
    find_best_fit pad l s = firstMinQual (s + pad + m_headerSize) l := by
  rcases hff : find_first_fit (s + pad + m_headerSize) l with _ | ⟨f, rest⟩
  · rw [find_best_fit_of_fff_none hff]
    exact (firstMinQual_none.mpr (find_first_fit_none.mp hff)).symm
  · rw [find_best_fit_of_fff_some hff]
    obtain ⟨pre, hl, hpre, hf⟩ := find_first_fit_some hff
    rw [hl, firstMinQual_append_skip pre (f :: rest) hpre]
    rw [find_best_loop_eq_fmq rest f hf]
    rcases hm : firstMinQual (s + pad + m_headerSize) rest with _ | m
    · rw [firstMinQual_cons_none hm, if_pos hf, pickBetter_none]
    · have hq := firstMinQual_qual hm
      rw [firstMinQual_cons_some hm, if_pos hf, pickBetter_some]
      by_cases h1 : m.size < f.size
      · rw [if_pos h1, if_neg (by omega)]
      · rw [if_neg h1, if_pos (by omega)]

/-- Ascending block addresses: the free-list ordering of the spec. -/
def ltAddr (a b : Block) : Prop := a.addr < b.addr

lemma gapLt_trans {a b c : Block} (h1 : gapLt a b) (h2 : gapLt b c) : gapLt a c := by
  unfold gapLt blockEnd m_headerSize at *
  omega

lemma gapLt_ltAddr {a b : Block} (h : gapLt a b) : ltAddr a b := by
  unfold gapLt ltAddr blockEnd m_headerSize at *
  omega

lemma ltAddr_trans {a b c : Block} (h1 : ltAddr a b) (h2 : ltAddr b c) : ltAddr a c := by
  unfold ltAddr at *
  omega

lemma chain'_rel_head {R : Block → Block → Prop}
    (htrans : ∀ a b c, R a b → R b c → R a c) :
    ∀ (l : List Block) (a : Block), List.Chain' R (a :: l) → ∀ b ∈ l, R a b := by
  intro l
  induction l with
  | nil => intro a _ b hb; simp at hb
  | cons c tl ih =>
      intro a h b hb
      have h1 : R a c := (List.chain'_cons.mp h).1
      have h2 : List.Chain' R (c :: tl) := (List.chain'_cons.mp h).2
      rcases List.mem_cons.mp hb with he | hb
      · rw [he]; exact h1
      · exact htrans a c b h1 (ih c h2 b hb)

lemma chain'_to_pairwise {R : Block → Block → Prop}
    (htrans : ∀ a b c, R a b → R b c → R a c) :
    ∀ {l : List Block}, List.Chain' R l → List.Pairwise R l := by
  intro l
  induction l with
  | nil => intro _; exact List.Pairwise.nil
  | cons a tl ih =>
      intro h
      have h2 : List.Chain' R tl := h.tail
      exact List.Pairwise.cons (chain'_rel_head htrans tl a h) (ih h2)

lemma blocksDisjoint_symm {a b : Block} (h : BlocksDisjoint a b) :
    BlocksDisjoint b a := h.symm

lemma blocksDisjoint_addr_ne {a b : Block} (h : BlocksDisjoint a b) :
    a.addr ≠ b.addr := by
  unfold BlocksDisjoint blockEnd m_headerSize at h
  omega

lemma blocksDisjoint_of_sub {z u x : Block} (hz : BlocksDisjoint z u)
    (h1 : u.addr ≤ x.addr) (h2 : blockEnd x ≤ blockEnd u) : BlocksDisjoint z x := by
  unfold BlocksDisjoint blockEnd m_headerSize at *
  omega

lemma blocksDisjoint_of_union {z u v m : Block} (hu : BlocksDisjoint z u)
    (hv : BlocksDisjoint z v) (huv : blockEnd u = v.addr) (hma : m.addr = u.addr)
    (hme : blockEnd m = blockEnd v) : BlocksDisjoint z m := by
  unfold BlocksDisjoint blockEnd m_headerSize at *
  omega

lemma replaceBlock_append {b r : Block} :
    ∀ {l1 l2 : List Block}, (∀ c ∈ l1, c.addr ≠ b.addr) →
      replaceBlock (l1 ++ b :: l2) b.addr r = l1 ++ r :: l2 := by
  intro l1
  induction l1 with
  | nil => intro l2 _; simp [replaceBlock]
  | cons c tl ih =>
      intro l2 h
      have hc : c.addr ≠ b.addr := h c (by simp)
      simp only [List.cons_append, replaceBlock, if_neg hc, List.append_eq]
      rw [ih (fun d hd => h d (by simp [hd]))]

lemma removeBlock_append {b : Block} :
    ∀ {l1 l2 : List Block}, (∀ c ∈ l1, c.addr ≠ b.addr) →
      removeBlock (l1 ++ b :: l2) b.addr = l1 ++ l2 := by
  intro l1
  induction l1 with
  | nil => intro l2 _; simp [removeBlock]
  | cons c tl ih =>
      intro l2 h
      have hc : c.addr ≠ b.addr := h c (by simp)
      simp only [List.cons_append, removeBlock, if_neg hc, List.append_eq]
      rw [ih (fun d hd => h d (by simp [hd]))]

lemma replaceBlock_length : ∀ (l : List Block) (a : Nat) (r : Block),
    (replaceBlock l a r).length = l.length := by
  intro l
  induction l with
  | nil => intro a r; rfl
  | cons c tl ih =>
      intro a r
      by_cases hc : c.addr = a
      · simp [replaceBlock, hc]
      · simp [replaceBlock, hc, ih]

lemma lookupAlloc_some {a : Nat} :
    ∀ {l : List Block} {b : Block}, lookupAlloc l a = some b → b ∈ l ∧ b.addr = a := by
  intro l
  induction l with
  | nil => intro b h; simp [lookupAlloc] at h
  | cons c tl ih =>
      intro b h
      by_cases hc : c.addr = a
      · simp only [lookupAlloc, if_pos hc, Option.some.injEq] at h
        rw [← h]; exact ⟨by simp, hc⟩
      · simp only [lookupAlloc, if_neg hc] at h
        obtain ⟨h1, h2⟩ := ih h
        exact ⟨by simp [h1], h2⟩

lemma insert_through {b : Block} :
    ∀ (f1 l : List Block), (∀ x ∈ f1, ¬ b.addr < x.addr) →
      insert_into_free_list b (f1 ++ l) = f1 ++ insert_into_free_list b l := by
  intro f1
  induction f1 with
  | nil => intro l _; rfl
  | cons x tl ih =>
      intro l h
      have hx : ¬ b.addr < x.addr := h x (by simp)
      simp only [List.cons_append, insert_into_free_list, if_neg hx, List.append_eq]
      rw [ih l (fun y hy => h y (by simp [hy]))]

lemma insert_cons_lt {b it : Block} {rest : List Block} (h : b.addr < it.addr) :
    insert_into_free_list b (it :: rest) = b :: it :: rest := by
  simp [insert_into_free_list, h]

/-- Where `insert_into_free_list` puts the block: before the first entry
with a larger address. -/
lemma insert_split {b : Block} :
    ∀ {fl : List Block}, fl.Pairwise ltAddr → (∀ x ∈ fl, x.addr ≠ b.addr) →
      ∃ f1 f2, fl = f1 ++ f2 ∧
        insert_into_free_list b fl = f1 ++ b :: f2 ∧
        (∀ x ∈ f1, x.addr < b.addr) ∧ (∀ x ∈ f2, b.addr < x.addr) := by
  intro fl
  induction fl with
  | nil =>
      intro _ _
      exact ⟨[], [], rfl, rfl, by simp, by simp⟩
  | cons it rest ih =>
      intro hp hne
      by_cases hlt : b.addr < it.addr
      · refine ⟨[], it :: rest, rfl, insert_cons_lt hlt, by simp, ?_⟩
        intro x hx
        rcases List.mem_cons.mp hx with he | hx
        · rw [he]; exact hlt
        · have := (List.pairwise_cons.mp hp).1 x hx
          unfold ltAddr at this
          omega
      · have hgt : it.addr < b.addr := by
          have := hne it (by simp)
          omega
        obtain ⟨f1, f2, he, hi, h1, h2⟩ :=
          ih (List.pairwise_cons.mp hp).2 (fun x hx => hne x (by simp [hx]))
        refine ⟨it :: f1, f2, by simp [he], ?_, ?_, h2⟩
        · simp only [insert_into_free_list, if_neg hlt, List.append_eq]
          rw [hi]
          simp
        · intro x hx
          rcases List.mem_cons.mp hx with hx | hx
          · rw [hx]; exact hgt
          · exact h1 x hx

lemma chain'_append_mid {R : Block → Block → Prop} {l1 l2 : List Block} {m : Block}
    (h1 : List.Chain' R l1) (h2 : List.Chain' R (m :: l2))
    (hb : ∀ A ∈ l1.getLast?, R A m) : List.Chain' R (l1 ++ m :: l2) := by
  rw [List.chain'_append]
  refine ⟨h1, h2, ?_⟩
  intro x hx y hy
  simp only [List.head?_cons, Option.mem_def, Option.some.injEq] at hy
  rw [← hy]
  exact hb x hx

lemma chain'_split_mid {R : Block → Block → Prop} {l1 l2 : List Block} {m : Block}
    (h : List.Chain' R (l1 ++ m :: l2)) :
    List.Chain' R l1 ∧ List.Chain' R (m :: l2) ∧ (∀ A ∈ l1.getLast?, R A m) := by
  rw [List.chain'_append] at h
  refine ⟨h.1, h.2.1, ?_⟩
  intro A hA
  exact h.2.2 A hA m (by simp)

/-- Bytes accounted for by a list of blocks, headers included. -/
def sizeSum (l : List Block) : Nat := (l.map (fun b => b.size + m_headerSize)).sum

lemma sizeSum_append (l1 l2 : List Block) :
    sizeSum (l1 ++ l2) = sizeSum l1 + sizeSum l2 := by
  simp [sizeSum]

lemma sizeSum_cons (b : Block) (l : List Block) :
    sizeSum (b :: l) = (b.size + m_headerSize) + sizeSum l := by
  simp [sizeSum]

/-- Closed form of the left-merge half of `merge_adjacent_blocks`: `bp` is
the freed block after the right merge, `l1` the free-list prefix before it
(its last entry is `block->previous`), `l2` the suffix after the right
merge. -/
def leftStep : List Block → Block → List Block → List Block
  | [], bp, l2 => bp :: l2
  | [A], bp, l2 =>
      if bp.addr = A.addr + m_headerSize + A.size then
        ⟨A.addr, bp.size + A.size + m_headerSize⟩ :: l2
      else A :: bp :: l2
  | x :: y :: rest, bp, l2 => x :: leftStep (y :: rest) bp l2

lemma mergeInner_append {bp : Block} {l2 : List Block} :
    ∀ (l1 : List Block) (x : Block), (∀ z ∈ l1, z.addr ≠ bp.addr) →
      mergeInner bp.addr x (l1 ++ bp :: l2) =
        leftStep (x :: l1) (mergeRight bp l2).1 (mergeRight bp l2).2 := by
  intro l1
  induction l1 with
  | nil =>
      intro x _
      simp [mergeInner, leftStep]
  | cons y tl ih =>
      intro x h
      have hy : y.addr ≠ bp.addr := h y (by simp)
      simp only [List.cons_append, mergeInner, if_neg hy, List.append_eq]
      rw [ih y (fun z hz => h z (by simp [hz]))]
      rfl

lemma merge_adjacent_eq {bp : Block} {l2 : List Block} :
    ∀ (l1 : List Block), (∀ z ∈ l1, z.addr ≠ bp.addr) →
      merge_adjacent_blocks bp.addr (l1 ++ bp :: l2) =
        leftStep l1 (mergeRight bp l2).1 (mergeRight bp l2).2 := by
  intro l1 h
  cases l1 with
  | nil => simp [merge_adjacent_blocks, leftStep]
  | cons x tl =>
      have hx : x.addr ≠ bp.addr := h x (by simp)
      simp only [List.cons_append, merge_adjacent_blocks, if_neg hx]
      exact mergeInner_append tl x (fun z hz => h z (by simp [hz]))

lemma mergeRight_addr (bp : Block) (l2 : List Block) :
    (mergeRight bp l2).1.addr = bp.addr := by
  cases l2 with
  | nil => rfl
  | cons c rest =>
      by_cases h : c.addr = bp.addr + m_headerSize + bp.size
      · simp [mergeRight, h]
      · simp [mergeRight, h]

lemma leftStep_head :
    ∀ (y : Block) (rest : List Block) (bp : Block) (l2 : List Block),
      ∃ h t, leftStep (y :: rest) bp l2 = h :: t ∧ h.addr = y.addr := by
  intro y rest bp l2
  cases rest with
  | nil =>
      by_cases hc : bp.addr = y.addr + m_headerSize + y.size
      · refine ⟨⟨y.addr, bp.size + y.size + m_headerSize⟩, l2, ?_, rfl⟩
        simp [leftStep, hc]
      · refine ⟨y, bp :: l2, ?_, rfl⟩
        simp [leftStep, hc]
  | cons z rest' => exact ⟨y, _, rfl, rfl⟩

lemma leftStep_chain :
    ∀ (l1 : List Block) (bp : Block) (l2 : List Block),
      List.Chain' gapLt l1 → List.Chain' gapLt (bp :: l2) →
      (∀ A ∈ l1.getLast?, blockEnd A ≤ bp.addr) →
      List.Chain' gapLt (leftStep l1 bp l2) := by
  intro l1
  induction l1 with
  | nil => intro bp l2 _ h2 _; exact h2
  | cons x tl ih =>
      intro bp l2 h1 h2 hb
      cases tl with
      | nil =>
          have hbx : blockEnd x ≤ bp.addr := hb x (by simp)
          by_cases hc : bp.addr = x.addr + m_headerSize + x.size
          · show List.Chain' gapLt (leftStep [x] bp l2)
            rw [show leftStep [x] bp l2 =
                (⟨x.addr, bp.size + x.size + m_headerSize⟩ : Block) :: l2 from by
              simp [leftStep, hc]]
            rcases List.chain'_cons'.mp h2 with ⟨hh, ht⟩
            refine List.chain'_cons'.mpr ⟨?_, ht⟩
            intro d hd
            have h3 := hh d hd
            simp only [gapLt, blockEnd, m_headerSize] at h3 hc ⊢
            omega
          · show List.Chain' gapLt (leftStep [x] bp l2)
            rw [show leftStep [x] bp l2 = x :: bp :: l2 from by simp [leftStep, hc]]
            refine List.chain'_cons.mpr ⟨?_, h2⟩
            simp only [gapLt, blockEnd, m_headerSize] at hbx hc ⊢
            omega
      | cons y rest =>
          show List.Chain' gapLt (x :: leftStep (y :: rest) bp l2)
          obtain ⟨h, t, he, ha⟩ := leftStep_head y rest bp l2
          rw [he]
          refine List.chain'_cons'.mpr ⟨?_, ?_⟩
          · intro d hd
            simp only [List.head?_cons, Option.mem_def, Option.some.injEq] at hd
            have hxy : gapLt x y := (List.chain'_cons.mp h1).1
            rw [← hd]
            unfold gapLt at *
            rw [ha]
            exact hxy
          · rw [← he]
            exact ih bp l2 (List.chain'_cons.mp h1).2 h2
              (by
                intro A hA
                apply hb
                rw [List.getLast?_cons_cons]
                exact hA)

lemma leftStep_sum :
    ∀ (l1 : List Block) (bp : Block) (l2 : List Block),
      sizeSum (leftStep l1 bp l2) =
        sizeSum l1 + (bp.size + m_headerSize) + sizeSum l2 := by
  intro l1
  induction l1 with
  | nil =>
      intro bp l2
      show sizeSum (bp :: l2) = _
      rw [sizeSum_cons]
      simp [sizeSum]
  | cons x tl ih =>
      intro bp l2
      cases tl with
      | nil =>
          by_cases hc : bp.addr = x.addr + m_headerSize + x.size
          · rw [show leftStep [x] bp l2 =
                (⟨x.addr, bp.size + x.size + m_headerSize⟩ : Block) :: l2 from by
              simp [leftStep, hc]]
            rw [sizeSum_cons]
            simp [sizeSum_cons, sizeSum]
            omega
          · rw [show leftStep [x] bp l2 = x :: bp :: l2 from by simp [leftStep, hc]]
            rw [sizeSum_cons, sizeSum_cons]
            simp [sizeSum_cons, sizeSum]
            omega
      | cons y rest =>
          show sizeSum (x :: leftStep (y :: rest) bp l2) = _
          rw [sizeSum_cons, ih bp l2]
          simp only [sizeSum_cons]
          omega

lemma leftStep_mem :
    ∀ (l1 : List Block) (bp : Block) (l2 : List Block) (z : Block),
      z ∈ leftStep l1 bp l2 →
      z ∈ l1 ∨ z ∈ l2 ∨ z = bp ∨
        ∃ A, A ∈ l1 ∧ bp.addr = blockEnd A ∧
          z = ⟨A.addr, bp.size + A.size + m_headerSize⟩ := by
  intro l1
  induction l1 with
  | nil =>
      intro bp l2 z hz
      rcases List.mem_cons.mp hz with he | hz
      · right; right; left; exact he
      · right; left; exact hz
  | cons x tl ih =>
      intro bp l2 z hz
      cases tl with
      | nil =>
          by_cases hc : bp.addr = x.addr + m_headerSize + x.size
          · rw [show leftStep [x] bp l2 =
                (⟨x.addr, bp.size + x.size + m_headerSize⟩ : Block) :: l2 from by
              simp [leftStep, hc]] at hz
            rcases List.mem_cons.mp hz with he | hz
            · right; right; right
              exact ⟨x, by simp, by unfold blockEnd; exact hc, he⟩
            · right; left; exact hz
          · rw [show leftStep [x] bp l2 = x :: bp :: l2 from by
              simp [leftStep, hc]] at hz
            rcases List.mem_cons.mp hz with he | hz
            · left; simp [he]
            · rcases List.mem_cons.mp hz with he | hz
              · right; right; left; exact he
              · right; left; exact hz
      | cons y rest =>
          rcases List.mem_cons.mp hz with he | hz
          · left; simp [he]
          · rcases ih bp l2 z hz with h | h | h | ⟨A, hA, h1, h2⟩
            · left; exact List.mem_cons_of_mem x h
            · right; left; exact h
            · right; right; left; exact h
            · right; right; right
              exact ⟨A, List.mem_cons_of_mem x hA, h1, h2⟩

lemma pairwise_merge_head {A bp m : Block} {t : List Block}
    (P : (A :: bp :: t).Pairwise BlocksDisjoint) (hma : m.addr = A.addr)
    (hme : blockEnd m = blockEnd bp) (huv : blockEnd A = bp.addr) :
    (m :: t).Pairwise BlocksDisjoint := by
  rcases List.pairwise_cons.mp P with ⟨hA, P2⟩
  rcases List.pairwise_cons.mp P2 with ⟨hbp, P3⟩
  refine List.pairwise_cons.mpr ⟨?_, P3⟩
  intro z hz
  exact blocksDisjoint_symm
    (blocksDisjoint_of_union
      (blocksDisjoint_symm (hA z (by simp [hz])))
      (blocksDisjoint_symm (hbp z hz)) huv hma hme)

lemma leftStep_pairwise {rest : List Block} :
    ∀ (l1 : List Block) (bp : Block) (l2 : List Block),
      ((l1 ++ bp :: l2) ++ rest).Pairwise BlocksDisjoint →
      ((leftStep l1 bp l2) ++ rest).Pairwise BlocksDisjoint := by
  intro l1
  induction l1 with
  | nil => intro bp l2 P; exact P
  | cons x tl ih =>
      intro bp l2 P
      cases tl with
      | nil =>
          by_cases hc : bp.addr = x.addr + m_headerSize + x.size
          · rw [show leftStep [x] bp l2 =
                (⟨x.addr, bp.size + x.size + m_headerSize⟩ : Block) :: l2 from by
              simp [leftStep, hc]]
            have P' : (x :: bp :: (l2 ++ rest)).Pairwise BlocksDisjoint := by
              simpa using P
            have hme : blockEnd (⟨x.addr, bp.size + x.size + m_headerSize⟩ : Block) =
                blockEnd bp := by
              simp only [blockEnd, m_headerSize] at hc ⊢
              omega
            have huv : blockEnd x = bp.addr := by
              simp only [blockEnd, m_headerSize] at hc ⊢
              omega
            have hres := pairwise_merge_head P'
              (m := ⟨x.addr, bp.size + x.size + m_headerSize⟩) rfl hme huv
            simpa using hres
          · rw [show leftStep [x] bp l2 = x :: bp :: l2 from by simp [leftStep, hc]]
            exact P
      | cons y restl =>
          show ((x :: leftStep (y :: restl) bp l2) ++ rest).Pairwise BlocksDisjoint
          have P' : (x :: (((y :: restl) ++ bp :: l2) ++ rest)).Pairwise BlocksDisjoint := by
            simpa using P
          rcases List.pairwise_cons.mp P' with ⟨hx, P2⟩
          have tailP := ih bp l2 (by simpa using P2)
          rw [List.cons_append]
          refine List.pairwise_cons.mpr ⟨?_, tailP⟩
          intro z hz
          rcases List.mem_append.mp hz with hz | hz
          · rcases leftStep_mem (y :: restl) bp l2 z hz with h | h | h | ⟨B, hB, h1, h2⟩
            · apply hx
              simp only [List.mem_append, List.mem_cons] at h ⊢
              tauto
            · apply hx
              simp only [List.mem_append, List.mem_cons]
              tauto
            · apply hx
              simp only [List.mem_append, List.mem_cons]
              tauto
            · have hxB : BlocksDisjoint x B := by
                apply hx
                simp only [List.mem_append, List.mem_cons] at hB ⊢
                tauto
              have hxbp : BlocksDisjoint x bp := by
                apply hx
                simp only [List.mem_append, List.mem_cons]
                tauto
              refine blocksDisjoint_of_union hxB hxbp h1.symm (by rw [h2]) ?_
              rw [h2]
              simp only [blockEnd, m_headerSize] at h1 ⊢
              omega
          · apply hx
            simp only [List.mem_append, List.mem_cons]
            tauto

lemma getLastMem : ∀ {l : List Block} {A : Block}, l.getLast? = some A → A ∈ l := by
  intro l
  induction l with
  | nil => intro A h; simp at h
  | cons x tl ih =>
      intro A h
      cases tl with
      | nil => simp at h; simp [h]
      | cons y rest =>
          rw [List.getLast?_cons_cons] at h
          exact List.mem_cons_of_mem x (ih h)

lemma sumBlocks_eq (st : Heap) : sumBlocks st = sizeSum (st.freeList ++ st.allocated) :=
  rfl

lemma mergeRight_cons (blk c : Block) (g2 : List Block) :
    mergeRight blk (c :: g2) =
      if c.addr = blockEnd blk then
        (⟨blk.addr, blk.size + c.size + m_headerSize⟩, g2)
      else (blk, c :: g2) := rfl

lemma allocate_none_state {st : Heap} {n : Nat}
    (h : find_best_fit st.padding st.freeList (get_aligned_size st.padding n) = none) :
    allocate st n = (none, st) := by
  simp only [allocate]
  rw [h]

lemma allocate_some_state {st : Heap} {n : Nat} {best : Block}
    (h : find_best_fit st.padding st.freeList (get_aligned_size st.padding n) =
      some best) :
    allocate st n =
      (some (best.addr + m_headerSize),
       { st with
          freeList :=
            remove_and_split best (get_aligned_size st.padding n) st.freeList
          allocated := ⟨best.addr, get_aligned_size st.padding n⟩ :: st.allocated }) := by
  simp only [allocate]
  rw [h]

lemma inv_init (pad ptr nbytes : Nat) (hlb : m_headerSize ≤ nbytes) :
    Inv (heapInit pad ptr nbytes) := by
  constructor
  · simp [heapInit]
  · simp [heapInit, allBlocks]
  · simp only [sumBlocks, allBlocks, heapInit, List.append_nil, List.map_cons,
      List.map_nil, List.sum_cons, List.sum_nil]
    simp only [m_headerSize] at hlb ⊢
    omega
  · intro b hb
    simp only [allBlocks, heapInit, List.append_nil, List.mem_singleton] at hb
    rw [hb]
    rfl

lemma blocksDisjoint_symmetric : ∀ {x y : Block},
    BlocksDisjoint x y → BlocksDisjoint y x := fun h => Or.symm h

/-- Invariant preservation for the split branch of `remove_and_split`
together with the stamping of the chosen block's header. -/
lemma inv_split {st : Heap} {a : Nat} {best : Block} (h : Inv st)
    (hmem : best ∈ st.freeList) (hlt : a + m_headerSize ≤ best.size)
    (hne : best.size ≠ a) (ha8 : a % 8 = 0) :
    Inv { st with
            freeList := remove_and_split best a st.freeList
            allocated := ⟨best.addr, a⟩ :: st.allocated } := by
  obtain ⟨f1, f2, hfl⟩ := List.append_of_mem hmem
  have hpw : st.freeList.Pairwise gapLt :=
    chain'_to_pairwise (R := gapLt) (fun _ _ _ h1 h2 => gapLt_trans h1 h2) h.chain
  have hpw' : (f1 ++ best :: f2).Pairwise gapLt := by rw [← hfl]; exact hpw
  rcases List.pairwise_append.mp hpw' with ⟨hP1, hP2, hcross⟩
  have hne1 : ∀ c ∈ f1, c.addr ≠ best.addr := by
    intro c hc
    have := hcross c hc best (by simp)
    simp only [gapLt, blockEnd, m_headerSize] at this
    omega
  have hremend :
      blockEnd ⟨best.addr + a + m_headerSize, best.size - a - m_headerSize⟩ =
        blockEnd best := by
    simp only [blockEnd, m_headerSize] at hlt ⊢
    omega
  have hsplit : remove_and_split best a st.freeList =
      f1 ++ (⟨best.addr + a + m_headerSize,
              best.size - a - m_headerSize⟩ : Block) :: f2 := by
    unfold remove_and_split
    rw [if_neg hne, hfl]
    exact replaceBlock_append hne1
  have hchain : List.Chain' gapLt st.freeList := h.chain
  rw [hfl] at hchain
  rcases chain'_split_mid hchain with ⟨hc1, hc2, hcb⟩
  constructor
  · -- chain
    show List.Chain' gapLt (remove_and_split best a st.freeList)
    rw [hsplit]
    apply chain'_append_mid hc1
    · rcases List.chain'_cons'.mp hc2 with ⟨hh2, ht2⟩
      refine List.chain'_cons'.mpr ⟨?_, ht2⟩
      intro d hd
      have := hh2 d hd
      simp only [gapLt] at this ⊢
      rw [hremend]
      exact this
    · intro A hA
      have := hcb A hA
      simp only [gapLt, blockEnd, m_headerSize] at this ⊢
      omega
  · -- disj
    show ((remove_and_split best a st.freeList) ++
        (⟨best.addr, a⟩ : Block) :: st.allocated).Pairwise BlocksDisjoint
    rw [hsplit]
    have P0 : ((f1 ++ best :: f2) ++ st.allocated).Pairwise BlocksDisjoint := by
      have hd := h.disj
      unfold allBlocks at hd
      rw [hfl] at hd
      exact hd
    have e1 : ((f1 ++ best :: f2) ++ st.allocated).Perm
        (best :: ((f1 ++ f2) ++ st.allocated)) := by
      have := List.Perm.append_right st.allocated
        (@List.perm_middle Block best f1 f2)
      simpa using this
    have P1 := (e1.pairwise_iff blocksDisjoint_symmetric).mp P0
    rcases List.pairwise_cons.mp P1 with ⟨hba, Prest⟩
    have hremsub : ∀ z ∈ (f1 ++ f2) ++ st.allocated,
        BlocksDisjoint (⟨best.addr + a + m_headerSize,
          best.size - a - m_headerSize⟩ : Block) z := by
      intro z hz
      have hz' := hba z hz
      refine blocksDisjoint_symm
        (blocksDisjoint_of_sub (blocksDisjoint_symm hz') ?_ ?_)
      · show best.addr ≤ best.addr + a + m_headerSize
        omega
      · rw [hremend]
    have hstampsub : ∀ z ∈ (f1 ++ f2) ++ st.allocated,
        BlocksDisjoint (⟨best.addr, a⟩ : Block) z := by
      intro z hz
      have hz' := hba z hz
      refine blocksDisjoint_symm
        (blocksDisjoint_of_sub (blocksDisjoint_symm hz') (by simp) ?_)
      simp only [blockEnd, m_headerSize] at hlt ⊢
      omega
    have P2 : ((⟨best.addr + a + m_headerSize,
          best.size - a - m_headerSize⟩ : Block) ::
        (⟨best.addr, a⟩ : Block) :: ((f1 ++ f2) ++ st.allocated)).Pairwise
          BlocksDisjoint := by
      refine List.pairwise_cons.mpr ⟨?_, List.pairwise_cons.mpr ⟨hstampsub, Prest⟩⟩
      intro z hz
      rcases List.mem_cons.mp hz with he | hz
      · rw [he]
        right
      -- blockEnd of the stamped block equals the remainder's address
        simp only [blockEnd, m_headerSize]
        omega
      · exact hremsub z hz
    have e2 : ((f1 ++ (⟨best.addr + a + m_headerSize,
          best.size - a - m_headerSize⟩ : Block) :: f2) ++
        (⟨best.addr, a⟩ : Block) :: st.allocated).Perm
        ((⟨best.addr + a + m_headerSize,
          best.size - a - m_headerSize⟩ : Block) ::
         (⟨best.addr, a⟩ : Block) :: ((f1 ++ f2) ++ st.allocated)) := by
      have s1 := List.Perm.append_right ((⟨best.addr, a⟩ : Block) :: st.allocated)
        (@List.perm_middle Block ⟨best.addr + a + m_headerSize,
          best.size - a - m_headerSize⟩ f1 f2)
      have s2 : ((f1 ++ f2) ++ (⟨best.addr, a⟩ : Block) :: st.allocated).Perm
          ((⟨best.addr, a⟩ : Block) :: ((f1 ++ f2) ++ st.allocated)) :=
        @List.perm_middle Block ⟨best.addr, a⟩ (f1 ++ f2) st.allocated
      have s1' : ((f1 ++ (⟨best.addr + a + m_headerSize,
            best.size - a - m_headerSize⟩ : Block) :: f2) ++
          (⟨best.addr, a⟩ : Block) :: st.allocated).Perm
          ((⟨best.addr + a + m_headerSize,
            best.size - a - m_headerSize⟩ : Block) ::
            ((f1 ++ f2) ++ (⟨best.addr, a⟩ : Block) :: st.allocated)) := by
        simpa using s1
      exact s1'.trans (List.Perm.cons _ s2)
    exact (e2.pairwise_iff blocksDisjoint_symmetric).mpr P2
  · -- conserve
    show sizeSum ((remove_and_split best a st.freeList) ++
        (⟨best.addr, a⟩ : Block) :: st.allocated) = st.bytes
    rw [hsplit]
    have hc := h.conserve
    rw [sumBlocks_eq, hfl] at hc
    rw [sizeSum_append, sizeSum_append, sizeSum_cons, sizeSum_cons] at *
    simp only [sizeSum_append, sizeSum_cons] at hc ⊢
    simp only [m_headerSize] at *
    omega
  · -- align
    intro b hb
    simp only [allBlocks] at hb
    have halign := h.align
    unfold allBlocks at halign
    show b.addr % 8 = st.heapPtr % 8
    rw [hsplit] at hb
    rcases List.mem_append.mp hb with hb | hb
    · rcases List.mem_append.mp hb with hb | hb
      · exact halign b (by rw [hfl]; simp [hb])
      · rcases List.mem_cons.mp hb with he | hb
        · have hb8 := halign best (by rw [hfl]; simp)
          rw [he]
          simp only [m_headerSize]
          omega
        · exact halign b (by rw [hfl]; simp [hb])
    · rcases List.mem_cons.mp hb with he | hb
      · have hb8 := halign best (by rw [hfl]; simp)
        rw [he]
        exact hb8
      · exact halign b (by simp [hb])

/-- `allocate` preserves the heap invariant. -/
lemma inv_allocate (st : Heap) (n : Nat) (h : Inv st) : Inv (allocate st n).2 := by
  rcases hf : find_best_fit st.padding st.freeList (get_aligned_size st.padding n)
    with _ | best
  · rw [allocate_none_state hf]
    exact h
  · rw [allocate_some_state hf]
    obtain ⟨hmem, hsize⟩ := find_best_fit_some hf
    exact inv_split h hmem (by omega) (by omega)
      (get_aligned_size_mod8 st.padding n)

lemma deallocate_none_state {st : Heap} {p n : Nat}
    (h : lookupAlloc st.allocated (p - m_headerSize) = none) :
    deallocate st p n = st := by
  simp only [deallocate]
  rw [h]

lemma deallocate_some_state {st : Heap} {p n : Nat} {blk : Block}
    (h : lookupAlloc st.allocated (p - m_headerSize) = some blk) :
    deallocate st p n =
      { st with
          freeList := merge_adjacent_blocks blk.addr
            (insert_into_free_list blk st.freeList)
          allocated := removeBlock st.allocated blk.addr } := by
  simp only [deallocate]
  rw [h]

/-- Case analysis on the right merge: address, chain, accounting, pairwise
disjointness and membership facts about `mergeRight`'s result. -/
lemma mergeRight_facts {blk : Block} {g1 g2 rest : List Block}
    (hcg2 : List.Chain' gapLt g2)
    (hhead : ∀ c ∈ g2.head?, blockEnd blk ≤ c.addr)
    (Q : ((g1 ++ blk :: g2) ++ rest).Pairwise BlocksDisjoint) :
    (mergeRight blk g2).1.addr = blk.addr ∧
    List.Chain' gapLt ((mergeRight blk g2).1 :: (mergeRight blk g2).2) ∧
    (mergeRight blk g2).1.size + sizeSum (mergeRight blk g2).2 =
      blk.size + sizeSum g2 ∧
    ((g1 ++ (mergeRight blk g2).1 :: (mergeRight blk g2).2) ++ rest).Pairwise
      BlocksDisjoint ∧
    (∀ z ∈ (mergeRight blk g2).2, z ∈ g2) := by
  rcases g2 with _ | ⟨c, g2t⟩
  · have hrw : mergeRight blk [] = (blk, ([] : List Block)) := rfl
    rw [hrw]
    exact ⟨rfl, by simp, rfl, Q, by simp⟩
  · by_cases hadj : c.addr = blockEnd blk
    · have hrw : mergeRight blk (c :: g2t) =
          (⟨blk.addr, blk.size + c.size + m_headerSize⟩, g2t) := by
        rw [mergeRight_cons, if_pos hadj]
      rw [hrw]
      have hmend : blockEnd (⟨blk.addr, blk.size + c.size + m_headerSize⟩ : Block) =
          blockEnd c := by
        simp only [blockEnd, m_headerSize] at hadj ⊢
        omega
      refine ⟨rfl, ?_, ?_, ?_, ?_⟩
      · rcases List.chain'_cons'.mp hcg2 with ⟨hh, ht⟩
        refine List.chain'_cons'.mpr ⟨?_, ht⟩
        intro d hd
        have := hh d hd
        simp only [gapLt] at this ⊢
        rw [hmend]
        exact this
      · simp only [sizeSum_cons]
        simp only [m_headerSize]
        omega
      · -- pairwise after merging blk and c
        have p1 : ((g1 ++ blk :: c :: g2t) ++ rest).Perm
            (blk :: c :: ((g1 ++ g2t) ++ rest)) := by
          have s1 : (g1 ++ blk :: (c :: g2t)).Perm (blk :: (g1 ++ c :: g2t)) :=
            List.perm_middle
          have s2 : (g1 ++ c :: g2t).Perm (c :: (g1 ++ g2t)) := List.perm_middle
          have := (s1.trans (List.Perm.cons blk s2)).append_right rest
          simpa using this
        have QQ := (p1.pairwise_iff blocksDisjoint_symmetric).mp Q
        have hmerged := pairwise_merge_head QQ
          (m := ⟨blk.addr, blk.size + c.size + m_headerSize⟩) rfl hmend hadj.symm
        have p2 : ((g1 ++ (⟨blk.addr, blk.size + c.size + m_headerSize⟩ : Block) ::
            g2t) ++ rest).Perm
            ((⟨blk.addr, blk.size + c.size + m_headerSize⟩ : Block) ::
              ((g1 ++ g2t) ++ rest)) := by
          have s1 : (g1 ++ (⟨blk.addr, blk.size + c.size + m_headerSize⟩ : Block) ::
              g2t).Perm ((⟨blk.addr, blk.size + c.size + m_headerSize⟩ : Block) ::
              (g1 ++ g2t)) := List.perm_middle
          have := s1.append_right rest
          simpa using this
        exact (p2.pairwise_iff blocksDisjoint_symmetric).mpr hmerged
      · intro z hz
        exact List.mem_cons_of_mem c hz
    · have hrw : mergeRight blk (c :: g2t) = (blk, c :: g2t) := by
        rw [mergeRight_cons, if_neg hadj]
      rw [hrw]
      refine ⟨rfl, ?_, rfl, Q, by exact fun z hz => hz⟩
      refine List.chain'_cons.mpr ⟨?_, hcg2⟩
      have hle := hhead c (by simp)
      simp only [gapLt, blockEnd, m_headerSize] at hadj hle ⊢
      omega

/-- The deallocate path (`insert_into_free_list` followed by
`merge_adjacent_blocks`, with the block removed from the live set)
preserves the heap invariant. -/
lemma inv_insert_merge {st : Heap} {blk : Block} (h : Inv st)
    (hmem : blk ∈ st.allocated) :
    Inv { st with
            freeList := merge_adjacent_blocks blk.addr
              (insert_into_free_list blk st.freeList)
            allocated := removeBlock st.allocated blk.addr } := by
  obtain ⟨a1, a2, hal⟩ := List.append_of_mem hmem
  have hdisj := h.disj
  unfold allBlocks at hdisj
  rcases List.pairwise_append.mp hdisj with ⟨hPfl, hPal, hXfa⟩
  have hPal' : (a1 ++ blk :: a2).Pairwise BlocksDisjoint := by
    rw [← hal]; exact hPal
  rcases List.pairwise_append.mp hPal' with ⟨hPa1, hPa2, hacross⟩
  have hnea1 : ∀ c ∈ a1, c.addr ≠ blk.addr := fun c hc =>
    blocksDisjoint_addr_ne (hacross c hc blk (by simp))
  have hremove : removeBlock st.allocated blk.addr = a1 ++ a2 := by
    rw [hal]; exact removeBlock_append hnea1
  have hflne : ∀ x ∈ st.freeList, x.addr ≠ blk.addr := fun x hx =>
    blocksDisjoint_addr_ne (hXfa x hx blk hmem)
  have hfldisj : ∀ x ∈ st.freeList, BlocksDisjoint x blk := fun x hx =>
    hXfa x hx blk hmem
  have hplt : st.freeList.Pairwise ltAddr :=
    chain'_to_pairwise (R := ltAddr) (fun _ _ _ h1 h2 => ltAddr_trans h1 h2)
      (List.Chain'.imp (fun _ _ hab => gapLt_ltAddr hab) h.chain)
  obtain ⟨g1, g2, hg, hins, hlt1, hlt2⟩ := insert_split hplt hflne
  have hg1mem : ∀ x ∈ g1, x ∈ st.freeList := fun x hx => by rw [hg]; simp [hx]
  have hg2mem : ∀ x ∈ g2, x ∈ st.freeList := fun x hx => by rw [hg]; simp [hx]
  have hlast : ∀ A ∈ g1.getLast?, blockEnd A ≤ blk.addr := by
    intro A hA
    have hAg1 : A ∈ g1 := getLastMem hA
    have hd := hfldisj A (hg1mem A hAg1)
    have hlt := hlt1 A hAg1
    rcases hd with hd | hd
    · exact hd
    · exfalso
      simp only [blockEnd, m_headerSize] at hd
      omega
  have hhead : ∀ c ∈ g2.head?, blockEnd blk ≤ c.addr := by
    intro c hc
    have hcg2 : c ∈ g2 := List.mem_of_mem_head? hc
    have hd := hfldisj c (hg2mem c hcg2)
    have hlt := hlt2 c hcg2
    rcases hd with hd | hd
    · exfalso
      simp only [blockEnd, m_headerSize] at hd
      omega
    · exact hd
  have hchainfl := h.chain
  rw [hg] at hchainfl
  rcases List.chain'_append.mp hchainfl with ⟨hcg1, hcg2, hcbd⟩
  have hmerge : merge_adjacent_blocks blk.addr
      (insert_into_free_list blk st.freeList) =
      leftStep g1 (mergeRight blk g2).1 (mergeRight blk g2).2 := by
    rw [hins]
    exact merge_adjacent_eq g1 (fun z hz => by
      have := hlt1 z hz
      unfold ltAddr at this
      omega)
  -- pairwise with the freed block inserted
  have Q : ((g1 ++ blk :: g2) ++ (a1 ++ a2)).Pairwise BlocksDisjoint := by
    have P0 : ((g1 ++ g2) ++ (a1 ++ blk :: a2)).Pairwise BlocksDisjoint := by
      rw [← hg, ← hal]; exact hdisj
    have psrc : ((g1 ++ g2) ++ (a1 ++ blk :: a2)).Perm
        (blk :: ((g1 ++ g2) ++ (a1 ++ a2))) := by
      have s1 : (a1 ++ blk :: a2).Perm (blk :: (a1 ++ a2)) := List.perm_middle
      have s2 := List.Perm.append_left (g1 ++ g2) s1
      have s3 : ((g1 ++ g2) ++ blk :: (a1 ++ a2)).Perm
          (blk :: ((g1 ++ g2) ++ (a1 ++ a2))) := List.perm_middle
      exact s2.trans s3
    have ptgt : ((g1 ++ blk :: g2) ++ (a1 ++ a2)).Perm
        (blk :: ((g1 ++ g2) ++ (a1 ++ a2))) := by
      have s1 : (g1 ++ blk :: g2).Perm (blk :: (g1 ++ g2)) := List.perm_middle
      have := s1.append_right (a1 ++ a2)
      simpa using this
    exact (ptgt.pairwise_iff blocksDisjoint_symmetric).mpr
      ((psrc.pairwise_iff blocksDisjoint_symmetric).mp P0)
  obtain ⟨M1, M2, M3, M4, M5⟩ := mergeRight_facts hcg2 hhead Q
  constructor
  · -- chain
    show List.Chain' gapLt (merge_adjacent_blocks blk.addr
      (insert_into_free_list blk st.freeList))
    rw [hmerge]
    apply leftStep_chain g1 _ _ hcg1 M2
    intro A hA
    rw [M1]
    exact hlast A hA
  · -- disj
    show ((merge_adjacent_blocks blk.addr
        (insert_into_free_list blk st.freeList)) ++
      removeBlock st.allocated blk.addr).Pairwise BlocksDisjoint
    rw [hmerge, hremove]
    exact leftStep_pairwise g1 _ _ M4
  · -- conserve
    show sizeSum ((merge_adjacent_blocks blk.addr
        (insert_into_free_list blk st.freeList)) ++
      removeBlock st.allocated blk.addr) = st.bytes
    rw [hmerge, hremove, sizeSum_append, leftStep_sum]
    have hc := h.conserve
    rw [sumBlocks_eq, hg, hal] at hc
    simp only [sizeSum_append, sizeSum_cons] at hc ⊢
    omega
  · -- align
    intro b hb
    have halign := h.align
    unfold allBlocks at halign
    show b.addr % 8 = st.heapPtr % 8
    simp only [allBlocks] at hb
    have hb' : b ∈ (merge_adjacent_blocks blk.addr
        (insert_into_free_list blk st.freeList)) ++
        removeBlock st.allocated blk.addr := hb
    rw [hmerge, hremove] at hb'
    rcases List.mem_append.mp hb' with hb1 | hb1
    · rcases leftStep_mem g1 _ _ b hb1 with hz | hz | hz | ⟨A, hA, _, hzeq⟩
      · exact halign b (by simp [hg1mem b hz])
      · have : b ∈ g2 := M5 b hz
        exact halign b (by simp [hg2mem b this])
      · have hblk8 := halign blk (by simp [hmem])
        rw [hz, M1]
        exact hblk8
      · have hA8 := halign A (by simp [hg1mem A hA])
        rw [hzeq]
        exact hA8
    · rcases List.mem_append.mp hb1 with hb2 | hb2
      · exact halign b (by rw [hal]; simp [hb2])
      · exact halign b (by rw [hal]; simp [hb2])

/-- `deallocate` preserves the heap invariant. -/
lemma inv_deallocate (st : Heap) (p n : Nat) (h : Inv st) :
    Inv (deallocate st p n) := by
  rcases hl : lookupAlloc st.allocated (p - m_headerSize) with _ | blk
  · rw [deallocate_none_state hl]
    exact h
  · rw [deallocate_some_state hl]
    exact inv_insert_merge h (lookupAlloc_some hl).1

/-- Every reachable heap state satisfies the shape invariant. -/
theorem reachable_inv : ∀ {st : Heap}, Reachable st → Inv st := by
  intro st h
  induction h with
  | init ptrBytes ptr nbytes hlb hub => exact inv_init _ _ _ hlb
  | alloc st n _ ih => exact inv_allocate st n ih
  | dealloc st p n _ ih => exact inv_deallocate st p n ih

/-- Minimality of `find_best_fit`: no qualifying block is smaller than the
returned one. -/
lemma find_best_fit_min {pad s : Nat} {l : List Block} {best : Block}
    (h : find_best_fit pad l s = some best) :
    ∀ c ∈ l, s + pad + m_headerSize < c.size → best.size ≤ c.size := by
  rcases hff : find_first_fit (s + pad + m_headerSize) l with _ | ⟨f, rest⟩
  · rw [find_best_fit_of_fff_none hff] at h
    exact absurd h (by simp)
  · rw [find_best_fit_of_fff_some hff] at h
    simp only [Option.some.injEq] at h
    obtain ⟨pre, hl, hpre, hf⟩ := find_first_fit_some hff
    intro c hc hq
    rw [hl] at hc
    rcases List.mem_append.mp hc with hc | hc
    · have := hpre c hc
      omega
    · rcases List.mem_cons.mp hc with he | hc
      · rw [← h, he]
        exact find_best_loop_le rest f
      · rw [← h]
        exact find_best_loop_min rest f c hc hq

/-- `leftStep` with no left merge (the freed block does not start exactly at
the end of `block->previous`) just splices the block in place. -/
lemma leftStep_no_merge :
    ∀ (l1 : List Block) (bp : Block) (l2 : List Block),
      (∀ A ∈ l1.getLast?, bp.addr ≠ blockEnd A) →
      leftStep l1 bp l2 = l1 ++ bp :: l2 := by
  intro l1
  induction l1 with
  | nil => intro bp l2 _; rfl
  | cons x tl ih =>
      intro bp l2 h
      cases tl with
      | nil =>
          have hx : bp.addr ≠ blockEnd x := h x (by simp)
          show leftStep [x] bp l2 = _
          simp only [blockEnd] at hx
          simp [leftStep, hx]
      | cons y rest =>
          show x :: leftStep (y :: rest) bp l2 = _
          rw [ih bp l2 (by
            intro A hA
            apply h
            rw [List.getLast?_cons_cons]
            exact hA)]
          rfl

/-- On a reachable 8-byte aligned region, the payload pointer returned by a
successful `allocate` is 8-byte aligned. -/
lemma allocate_ptr_aligned {st : Heap} {m p : Nat} (h : Reachable st)
    (hbase : st.heapPtr % 8 = 0) (hs : (allocate st m).1 = some p) :
    p % 8 = 0 := by
  rcases hf : find_best_fit st.padding st.freeList (get_aligned_size st.padding m)
    with _ | best
  · rw [allocate_none_state hf] at hs
    exact absurd hs (by simp)
  · rw [allocate_some_state hf] at hs
    simp only [Option.some.injEq] at hs
    obtain ⟨hmem, _⟩ := find_best_fit_some hf
    have halign := (reachable_inv h).align best (by unfold allBlocks; simp [hmem])
    rw [← hs]
    simp only [m_headerSize]
    omega

/-- Freeing the block just returned by a successful `allocate` restores the
heap exactly: the remainder carved by `remove_and_split` is re-absorbed by
`merge_adjacent_blocks` and the stamped header leaves the live set. -/
lemma alloc_dealloc_restore {st : Heap} {k p : Nat} (h : Inv st)
    (hs : (allocate st k).1 = some p) (n : Nat) :
    deallocate (allocate st k).2 p n = st := by
  rcases hf : find_best_fit st.padding st.freeList (get_aligned_size st.padding k)
    with _ | best
  · rw [allocate_none_state hf] at hs
    exact absurd hs (by simp)
  · obtain ⟨hmem, hsize⟩ := find_best_fit_some hf
    have hlt : get_aligned_size st.padding k + m_headerSize ≤ best.size := by omega
    have hne : best.size ≠ get_aligned_size st.padding k := by omega
    rw [allocate_some_state hf] at hs ⊢
    simp only [Option.some.injEq] at hs
    -- decompose the free list around the chosen block
    obtain ⟨f1, f2, hfl⟩ := List.append_of_mem hmem
    have hpw : st.freeList.Pairwise gapLt :=
      chain'_to_pairwise (R := gapLt) (fun _ _ _ h1 h2 => gapLt_trans h1 h2) h.chain
    have hpw' : (f1 ++ best :: f2).Pairwise gapLt := by rw [← hfl]; exact hpw
    rcases List.pairwise_append.mp hpw' with ⟨_, _, hcross⟩
    have hgap1 : ∀ c ∈ f1, gapLt c best := fun c hc => hcross c hc best (by simp)
    have hne1 : ∀ c ∈ f1, c.addr ≠ best.addr := by
      intro c hc
      have := hgap1 c hc
      simp only [gapLt, blockEnd, m_headerSize] at this
      omega
    have hsplit : remove_and_split best (get_aligned_size st.padding k) st.freeList =
        f1 ++ (⟨best.addr + get_aligned_size st.padding k + m_headerSize,
                best.size - get_aligned_size st.padding k - m_headerSize⟩ : Block) ::
          f2 := by
      unfold remove_and_split
      rw [if_neg hne, hfl]
      exact replaceBlock_append hne1
    -- the freed header is found at the stamped address
    have hback : p - m_headerSize = best.addr := by omega
    have hlook : lookupAlloc
        ({ st with
            freeList :=
              remove_and_split best (get_aligned_size st.padding k) st.freeList
            allocated := ⟨best.addr, get_aligned_size st.padding k⟩ ::
              st.allocated } : Heap).allocated (p - m_headerSize) =
        some ⟨best.addr, get_aligned_size st.padding k⟩ := by
      show lookupAlloc (⟨best.addr, get_aligned_size st.padding k⟩ ::
        st.allocated) (p - m_headerSize) = _
      rw [hback]
      simp [lookupAlloc]
    rw [deallocate_some_state hlook]
    -- the free list is restored
    have hins : insert_into_free_list
        (⟨best.addr, get_aligned_size st.padding k⟩ : Block)
        (f1 ++ (⟨best.addr + get_aligned_size st.padding k + m_headerSize,
                 best.size - get_aligned_size st.padding k - m_headerSize⟩ : Block) ::
          f2) =
        f1 ++ (⟨best.addr, get_aligned_size st.padding k⟩ : Block) ::
          (⟨best.addr + get_aligned_size st.padding k + m_headerSize,
            best.size - get_aligned_size st.padding k - m_headerSize⟩ : Block) ::
          f2 := by
      rw [insert_through f1 _ (by
        intro x hx
        have := hgap1 x hx
        simp only [gapLt, blockEnd, m_headerSize] at this ⊢
        omega)]
      rw [insert_cons_lt (by
        show best.addr < best.addr + get_aligned_size st.padding k + m_headerSize
        simp only [m_headerSize]
        omega)]
    have hmr : mergeRight (⟨best.addr, get_aligned_size st.padding k⟩ : Block)
        ((⟨best.addr + get_aligned_size st.padding k + m_headerSize,
           best.size - get_aligned_size st.padding k - m_headerSize⟩ : Block) ::
          f2) = (best, f2) := by
      rw [mergeRight_cons, if_pos (by
        show best.addr + get_aligned_size st.padding k + m_headerSize =
          blockEnd ⟨best.addr, get_aligned_size st.padding k⟩
        simp only [blockEnd]
        omega)]
      have hsz : get_aligned_size st.padding k +
          (best.size - get_aligned_size st.padding k - m_headerSize) +
          m_headerSize = best.size := by omega
      rw [show (⟨best.addr, get_aligned_size st.padding k +
          (best.size - get_aligned_size st.padding k - m_headerSize) +
          m_headerSize⟩ : Block) = best from by rw [hsz]]
    have hmerge : merge_adjacent_blocks best.addr
        (f1 ++ (⟨best.addr, get_aligned_size st.padding k⟩ : Block) ::
          (⟨best.addr + get_aligned_size st.padding k + m_headerSize,
            best.size - get_aligned_size st.padding k - m_headerSize⟩ : Block) ::
          f2) = f1 ++ best :: f2 := by
      have := @merge_adjacent_eq ⟨best.addr, get_aligned_size st.padding k⟩
        ((⟨best.addr + get_aligned_size st.padding k + m_headerSize,
           best.size - get_aligned_size st.padding k - m_headerSize⟩ : Block) ::
          f2) f1 (by
          intro z hz
          have := hgap1 z hz
          simp only [gapLt, blockEnd, m_headerSize] at this ⊢
          omega)
      rw [this, hmr]
      exact leftStep_no_merge f1 best f2 (by
        intro A hA
        have := hgap1 A (getLastMem hA)
        simp only [gapLt] at this
        omega)
    show ({ st with
        freeList := merge_adjacent_blocks
          (⟨best.addr, get_aligned_size st.padding k⟩ : Block).addr
          (insert_into_free_list (⟨best.addr, get_aligned_size st.padding k⟩ : Block)
            (remove_and_split best (get_aligned_size st.padding k) st.freeList))
        allocated := removeBlock
          ((⟨best.addr, get_aligned_size st.padding k⟩ : Block) :: st.allocated)
          (⟨best.addr, get_aligned_size st.padding k⟩ : Block).addr } : Heap) = st
    rw [hsplit]
    show ({ st with
        freeList := merge_adjacent_blocks best.addr
          (insert_into_free_list (⟨best.addr, get_aligned_size st.padding k⟩ : Block)
            (f1 ++ (⟨best.addr + get_aligned_size st.padding k + m_headerSize,
                     best.size - get_aligned_size st.padding k - m_headerSize⟩ :
                Block) :: f2))
        allocated := removeBlock
          ((⟨best.addr, get_aligned_size st.padding k⟩ : Block) :: st.allocated)
          best.addr } : Heap) = st
    rw [hins, hmerge, ← hfl]
    show ({ st with
        freeList := st.freeList
        allocated := removeBlock
          ((⟨best.addr, get_aligned_size st.padding k⟩ : Block) :: st.allocated)
          best.addr } : Heap) = st
    rw [show removeBlock
        ((⟨best.addr, get_aligned_size st.padding k⟩ : Block) :: st.allocated)
        best.addr = st.allocated from by simp [removeBlock]]

/-- Claim C1, counterexample: a free list holding a single block of size 16
contains a block of size at least the requested 16 bytes, yet
`find_best_fit` (with the 64-bit padding constant) returns none, because its
test is the strict `it->size > size + padding + m_headerSize`, not
`size ≥ requested`. -/
theorem claim1_counterexample :
    (⟨0, 16⟩ : Block) ∈ [(⟨0, 16⟩ : Block)] ∧
    (16 : Nat) ≤ (⟨0, 16⟩ : Block).size ∧
    find_best_fit (m_padding 8) [(⟨0, 16⟩ : Block)] 16 = none := by
  decide

/-- Claim C1 (amended): for every heap free list and requested size `s`, the
best-fit search returns the first-encountered block of minimal size among
those whose size strictly exceeds `s + padding + m_headerSize` (only a
strictly smaller qualifying block replaces the current best), and it returns
none exactly when no free-list block passes that strict test. -/
theorem claim1_best_fit_amended (pad s : Nat) (l : List Block) :
    find_best_fit pad l s = firstMinQual (s + pad + m_headerSize) l ∧
    (find_best_fit pad l s = none ↔ ∀ b ∈ l, b.size ≤ s + pad + m_headerSize) ∧
    ∀ b, find_best_fit pad l s = some b →
      b ∈ l ∧ s + pad + m_headerSize < b.size ∧
      ∀ c ∈ l, s + pad + m_headerSize < c.size → b.size ≤ c.size := by
  refine ⟨find_best_fit_eq_firstMinQual pad s l, find_best_fit_none_iff, ?_⟩
  intro b hb
  obtain ⟨h1, h2⟩ := find_best_fit_some hb
  exact ⟨h1, h2, find_best_fit_min hb⟩

/-- Claim C1 witness: the amended characterisation evaluated on a concrete
two-block free list. -/
theorem claim1_witness :
    find_best_fit (m_padding 8) [(⟨0, 100⟩ : Block), (⟨200, 40⟩ : Block)] 8 =
      firstMinQual (8 + m_padding 8 + m_headerSize)
        [(⟨0, 100⟩ : Block), (⟨200, 40⟩ : Block)] :=
  (claim1_best_fit_amended (m_padding 8) 8
    [(⟨0, 100⟩ : Block), (⟨200, 40⟩ : Block)]).1

/-- Claim C2, counterexample: on a 64-bit target (`m_padding 8 = 8`),
`get_aligned_size 8 = 16`, not `8`: the request is not merely rounded up to
the next multiple of 8 — the padding constant is added first. -/
theorem claim2_counterexample :
    get_aligned_size (m_padding 8) 8 = 16 ∧ (16 : Nat) ≠ 8 := by
  decide

/-- Claim C2 (amended): barring `size_t` overflow, `aligned_size(n)` is
`n + padding` rounded up to the next multiple of 8 (padding is 8 on 64-bit
targets and 0 on 32-bit targets): it is a multiple of 8 in the interval
`[n + padding, n + padding + 8)`, and equals `n + padding` exactly when `n`
is a multiple of 8; moreover on a reachable heap whose region base is 8-byte
aligned, every pointer returned by a successful allocate is 8-byte
aligned. -/
theorem claim2_aligned_size_amended (ptrBytes n : Nat)
    (hov : n + m_padding ptrBytes + 7 < SIZE_T_MOD) :
    get_aligned_size (m_padding ptrBytes) n % 8 = 0 ∧
    n + m_padding ptrBytes ≤ get_aligned_size (m_padding ptrBytes) n ∧
    get_aligned_size (m_padding ptrBytes) n < n + m_padding ptrBytes + 8 ∧
    (n % 8 = 0 →
      get_aligned_size (m_padding ptrBytes) n = n + m_padding ptrBytes) ∧
    ∀ (st : Heap) (m p : Nat), Reachable st → st.heapPtr % 8 = 0 →
      (allocate st m).1 = some p → p % 8 = 0 := by
  have hpad8 : m_padding ptrBytes % 8 = 0 := by
    unfold m_padding
    by_cases h : ptrBytes = 8 <;> simp [h]
  have h1 := get_aligned_size_mod8 (m_padding ptrBytes) n
  have h2 := get_aligned_size_lower (m_padding ptrBytes) n hov
  have h3 := get_aligned_size_upper (m_padding ptrBytes) n hov
  refine ⟨h1, h2, h3, ?_, ?_⟩
  · intro hn8
    omega
  · intro st m p hr hb hs
    exact allocate_ptr_aligned hr hb hs

/-- Claim C2 witness: the amended rounding rule evaluated at `n = 16` on a
64-bit target. -/
theorem claim2_witness :
    (16 : Nat) + m_padding 8 + 7 < SIZE_T_MOD ∧
    get_aligned_size (m_padding 8) 16 = 16 + m_padding 8 :=
  ⟨by decide, (claim2_aligned_size_amended 8 16 (by decide)).2.2.2.1 (by decide)⟩

/-- Claim C3, counterexample: on a freshly initialised 64-byte heap every
free block is far smaller than the request `2^64 - 14`, yet `allocate`
returns a pointer instead of failing, because the aligned-size computation
wraps around `size_t` to 0. -/
theorem claim3_counterexample :
    (∀ b ∈ (heapInit (m_padding 8) 0 64).freeList, b.size < SIZE_T_MOD - 14) ∧
    (allocate (heapInit (m_padding 8) 0 64) (SIZE_T_MOD - 14)).1 = some 8 := by
  decide

/-- Claim C3 (amended): when every free block is smaller than the requested
byte count and the request does not overflow the aligned-size computation
(`n + padding + 7 < 2^64`), `allocate` fails with the out-of-memory
condition (`bad_alloc`, modelled as `none`) and the heap — free-list head
and every block header — is left exactly unchanged. -/
theorem claim3_oom_amended (st : Heap) (n : Nat)
    (hsmall : ∀ b ∈ st.freeList, b.size < n)
    (hov : n + st.padding + 7 < SIZE_T_MOD) :
    allocate st n = (none, st) := by
  apply allocate_none_state
  apply find_best_fit_none_iff.mpr
  intro b hb
  have h1 := hsmall b hb
  have h2 := get_aligned_size_lower st.padding n hov
  omega

/-- Claim C3 witness: an oversized request on a fresh 64-byte heap fails and
leaves the heap untouched. -/
theorem claim3_witness :
    (∀ b ∈ (heapInit (m_padding 8) 0 64).freeList, b.size < 100) ∧
    allocate (heapInit (m_padding 8) 0 64) 100 =
      (none, heapInit (m_padding 8) 0 64) :=
  ⟨by decide,
   claim3_oom_amended (heapInit (m_padding 8) 0 64) 100 (by decide) (by decide)⟩

/-- Claim C4: in every state reachable from `init` by any sequence of
allocate and deallocate operations, the sum over every block (free or
allocated) of `size + header_size` equals the region length; split and
merge preserve this conservation law. -/
theorem claim4_conservation (st : Heap) (h : Reachable st) :
    sumBlocks st = st.bytes :=
  (reachable_inv h).conserve

/-- Claim C4 witness: conservation after an allocate on a fresh 64-byte
region. -/
theorem claim4_witness :
    sumBlocks (allocate (heapInit (m_padding 8) 0 64) 8).2 =
      (allocate (heapInit (m_padding 8) 0 64) 8).2.bytes :=
  claim4_conservation _
    (Reachable.alloc _ 8 (Reachable.init 8 0 64 (by decide) (by decide)))

/-- Claim C5: in every reachable state the free list is sorted by strictly
ascending block address: consecutive entries `A` then `B` satisfy
`address A < address B`. -/
theorem claim5_sorted (st : Heap) (h : Reachable st) :
    st.freeList.Chain' ltAddr :=
  List.Chain'.imp (fun _ _ hab => gapLt_ltAddr hab) (reachable_inv h).chain

/-- Claim C5 witness: sortedness after an allocate and a deallocate on a
fresh 89-byte region. -/
theorem claim5_witness :
    (deallocate (allocate (heapInit (m_padding 8) 0 89) 8).2 8 0).freeList.Chain'
      ltAddr :=
  claim5_sorted _
    (Reachable.dealloc _ 8 0
      (Reachable.alloc _ 8 (Reachable.init 8 0 89 (by decide) (by decide))))

/-- Claim C6: after any deallocate completes on a reachable heap, no two
free-list blocks are physically adjacent: for any two blocks of the
resulting free list, the end of one (`addr + header_size + size`) never
coincides with the start of the other — eager coalescing has merged any
such pair into a single entry. -/
theorem claim6_no_adjacent_free (st : Heap) (p n : Nat) (h : Reachable st)
    (A B : Block) (hA : A ∈ (deallocate st p n).freeList)
    (hB : B ∈ (deallocate st p n).freeList) :
    A.addr + m_headerSize + A.size ≠ B.addr := by
  have hst : Reachable (deallocate st p n) := Reachable.dealloc st p n h
  have hchain := (reachable_inv hst).chain
  have hpw : (deallocate st p n).freeList.Pairwise
      (fun a b => gapLt a b ∨ gapLt b a) :=
    (chain'_to_pairwise (R := gapLt) (fun _ _ _ h1 h2 => gapLt_trans h1 h2)
      hchain).imp (fun hab => Or.inl hab)
  by_cases he : A = B
  · rw [he]
    simp only [m_headerSize]
    omega
  · have hrel := List.Pairwise.forall (R := fun a b => gapLt a b ∨ gapLt b a)
      (fun _ _ hxy => Or.symm hxy) hpw hA hB he
    rcases hrel with h1 | h1 <;>
      (simp only [gapLt, blockEnd, m_headerSize] at h1 ⊢; omega)

/-- Claim C6 witness: non-adjacency evaluated after freeing the first
allocation on a fresh 64-byte region. -/
theorem claim6_witness :
    (⟨0, 56⟩ : Block).addr + m_headerSize + (⟨0, 56⟩ : Block).size ≠
      (⟨0, 56⟩ : Block).addr :=
  claim6_no_adjacent_free (allocate (heapInit (m_padding 8) 0 64) 8).2 8 0
    (Reachable.alloc _ 8 (Reachable.init 8 0 64 (by decide) (by decide)))
    ⟨0, 56⟩ ⟨0, 56⟩ (by decide) (by decide)

/-- Claim C7, counterexample: with region length 40 and request 8 the
claim's hypothesis `aligned_size(n) + header_size ≤ L - header_size` holds
(16 + 8 ≤ 32), yet the first allocate after init fails, because the best-fit
test additionally demands `size > aligned + padding + header_size`
strictly. -/
theorem claim7_counterexample :
    get_aligned_size (m_padding 8) 8 + m_headerSize ≤ 40 - m_headerSize ∧
    (allocate (heapInit (m_padding 8) 0 40) 8).1 = none := by
  decide

/-- Claim C7 (amended): immediately after `init(region, L)`, an
`allocate(n)` whose aligned size satisfies the strict bound
`aligned_size(n) + padding + header_size < L - header_size` succeeds,
returning the pointer `region_start + header_size`, which lies strictly
inside `[region_start, region_start + L)`. -/
theorem claim7_first_alloc_amended (ptrBytes ptr L n : Nat)
    (hfit : get_aligned_size (m_padding ptrBytes) n + m_padding ptrBytes +
      m_headerSize < L - m_headerSize) :
    (allocate (heapInit (m_padding ptrBytes) ptr L) n).1 =
      some (ptr + m_headerSize) ∧
    ptr ≤ ptr + m_headerSize ∧ ptr + m_headerSize < ptr + L := by
  have hff : find_first_fit
      (get_aligned_size (m_padding ptrBytes) n + m_padding ptrBytes + m_headerSize)
      [(⟨ptr, L - m_headerSize⟩ : Block)] =
      some (⟨ptr, L - m_headerSize⟩, []) := by
    simp only [find_first_fit]
    rw [if_pos]
    exact hfit
  have hfb : find_best_fit (m_padding ptrBytes) [(⟨ptr, L - m_headerSize⟩ : Block)]
      (get_aligned_size (m_padding ptrBytes) n) =
      some ⟨ptr, L - m_headerSize⟩ := by
    rw [find_best_fit_of_fff_some hff]
    rfl
  have hstate := @allocate_some_state
    (heapInit (m_padding ptrBytes) ptr L) n ⟨ptr, L - m_headerSize⟩ hfb
  rw [hstate]
  refine ⟨rfl, by omega, ?_⟩
  simp only [m_headerSize] at hfit ⊢
  omega

/-- Claim C7 witness: the first allocate on a fresh 64-byte region at base 0
succeeds and returns the in-bounds pointer 8. -/
theorem claim7_witness :
    get_aligned_size (m_padding 8) 8 + m_padding 8 + m_headerSize <
      64 - m_headerSize ∧
    (allocate (heapInit (m_padding 8) 0 64) 8).1 = some (0 + m_headerSize) :=
  ⟨by decide, (claim7_first_alloc_amended 8 0 64 8 (by decide)).1⟩

/-- Claim C8: from every reachable heap state, if `allocate(k)` succeeds
returning pointer `p`, then deallocating `p` restores the heap exactly, and
an immediate second `allocate(k)` returns the same address `p`. -/
theorem claim8_reuse (st : Heap) (k p n : Nat) (h : Reachable st)
    (hs : (allocate st k).1 = some p) :
    deallocate (allocate st k).2 p n = st ∧
    (allocate (deallocate (allocate st k).2 p n) k).1 = some p := by
  have hrestore := alloc_dealloc_restore (reachable_inv h) hs n
  exact ⟨hrestore, by rw [hrestore]; exact hs⟩

/-- Claim C8 witness: allocate/deallocate/allocate of 8 bytes on a fresh
64-byte region returns the same pointer 8 twice. -/
theorem claim8_witness :
    deallocate (allocate (heapInit (m_padding 8) 0 64) 8).2 8 0 =
      heapInit (m_padding 8) 0 64 ∧
    (allocate (deallocate (allocate (heapInit (m_padding 8) 0 64) 8).2 8 0) 8).1 =
      some 8 :=
  claim8_reuse (heapInit (m_padding 8) 0 64) 8 8 0
    (Reachable.init 8 0 64 (by decide) (by decide)) (by decide)

/-- Claim C9: every successful allocate leaves the number of free-list
entries unchanged — the best-fit test only accepts blocks strictly larger
than the needed size (plus padding and header), so the chosen block is
never an exact fit: the exact-fit removal branch of `remove_and_split` is
unreachable from `allocate` and a remainder is spliced into the chosen
block's list position instead. -/
theorem claim9_no_exact_fit (st : Heap) (n p : Nat)
    (hs : (allocate st n).1 = some p) :
    (allocate st n).2.freeList.length = st.freeList.length ∧
    ∀ best, find_best_fit st.padding st.freeList (get_aligned_size st.padding n) =
      some best → get_aligned_size st.padding n < best.size := by
  rcases hf : find_best_fit st.padding st.freeList (get_aligned_size st.padding n)
    with _ | best
  · rw [allocate_none_state hf] at hs
    exact absurd hs (by simp)
  · obtain ⟨hmem, hsize⟩ := find_best_fit_some hf
    constructor
    · rw [allocate_some_state hf]
      show (remove_and_split best (get_aligned_size st.padding n)
        st.freeList).length = _
      unfold remove_and_split
      rw [if_neg (by omega)]
      exact replaceBlock_length st.freeList best.addr _
    · intro b hb
      simp only [Option.some.injEq] at hb
      rw [← hb]
      omega

/-- Claim C9 witness: the free-list length is preserved by a successful
allocate on a fresh 64-byte region. -/
theorem claim9_witness :
    (allocate (heapInit (m_padding 8) 0 64) 8).2.freeList.length =
      (heapInit (m_padding 8) 0 64).freeList.length :=
  (claim9_no_exact_fit (heapInit (m_padding 8) 0 64) 8 8 (by decide)).1

/-- Claim C10: the result of `deallocate(pointer, count)` does not depend on
the count argument: for every heap state and pointer, any two counts
produce identical final heaps, because the body never reads `n` — the
coalescing arithmetic uses only the size stamped in the block's header. -/
theorem claim10_deallocate_count_irrelevant (st : Heap) (p n1 n2 : Nat) :
    deallocate st p n1 = deallocate st p n2 := rfl

end Alloc
